import Mathlib

/-!
Verification of the decoding core of a distributed flexible job-shop
scheduling repository (src/utils.py).  The embedding translates each
Python function into an executable Lean definition over Nat times.
Fallible Python operations (list indexing, max of an empty list,
subscripting with None) are modelled with Option: none is a raised
exception.  The factory genome is modelled with Int because Python list
indexing accepts negative indices (they wrap around), and one claim is
about exactly that behaviour.
-/

namespace Dafjsp

/-- A committed slot: (job, start, end), as the Python tuples. -/
abbrev Slot := Nat × Nat × Nat

/-- A machine schedule: ordered list of slots, as the Python lists. -/
abbrev Schedule := List Slot

/-- End time of the last slot of a schedule, 0 when empty.  This is the
per-schedule value that the Python makespan function appends to its
finish_times list: 0 for an empty schedule, otherwise schedule[-1][-1]. -/
def contribution : Schedule → Nat
  | [] => 0
  | [x] => x.2.2
  | _ :: y :: rest => contribution (y :: rest)

/-- Embedding of makespan (src/utils.py lines 12-19).  Python computes
max(finish_times); max raises ValueError on an empty list, hence none for
an empty collection.  For a nonempty collection the value is the maximum
of the contributions, written as a fold with seed 0, which equals the
Python max because every contribution is a Nat. -/
def makespan (schedules : List Schedule) : Option Nat :=
  match schedules with
  | [] => none
  | s :: rest => some (((s :: rest).map contribution).foldr max 0)

/-- The gap-scanning loop of insert_operation_to_schedule (lines 39-60).
prevEnd is the end of the previous slot (0 for the dummy slot the Python
code prepends).  For each slot x, the idle gap before x runs from prevEnd
to the start of x; the operation is placed there when the gap ends after
f (the finish time of the previous operation of the job) and is wide
enough, where the placement start is max f prevEnd.  The width test is
over Int because Python subtraction can go negative.  When no gap fits,
the operation is appended after the last slot.  The first component of
the result is the slot the Python code calls slot_of_operation (ghost
instrumentation: the Python function returns only the new schedule). -/
def insertLoop (t j f : Nat) : Nat → Schedule → Slot × Schedule
  | prevEnd, [] =>
      let s : Slot := (j, max f prevEnd, max f prevEnd + t)
      (s, [s])
  | prevEnd, x :: rest =>
      if f < x.2.1 ∧ (t : Int) ≤ (x.2.1 : Int) - (max f prevEnd : Int) then
        let s : Slot := (j, max f prevEnd, max f prevEnd + t)
        (s, s :: x :: rest)
      else
        let r := insertLoop t j f x.2.2 rest
        (r.1, x :: r.2)

/-- Embedding of insert_operation_to_schedule (src/utils.py lines 22-60):
empty schedule gets a single slot starting at the finish time of the
previous operation of the job; otherwise the gap scan runs with the dummy
previous end 0. -/
def insert_operation_to_schedule (time_of_operation job_of_operation
    finish_time_of_previous_operation : Nat) (schedule : Schedule) : Schedule :=
  match schedule with
  | [] => [(job_of_operation, finish_time_of_previous_operation,
            finish_time_of_previous_operation + time_of_operation)]
  | x :: rest =>
      (insertLoop time_of_operation job_of_operation
        finish_time_of_previous_operation 0 (x :: rest)).2

/-- The slot that insert_operation_to_schedule places (slot_of_operation
in the Python source); ghost companion of the function above. -/
def insertedSlot (t j f : Nat) (schedule : Schedule) : Slot :=
  match schedule with
  | [] => (j, f, f + t)
  | x :: rest => (insertLoop t j f 0 (x :: rest)).1

/-- One update of the max-end accumulator of
finish_time_of_last_operation: take the end of the slot when it belongs
to the job and exceeds the accumulator. -/
def ftStep (job acc : Nat) (s : Slot) : Nat :=
  if s.1 = job ∧ acc < s.2.2 then s.2.2 else acc

/-- Embedding of finish_time_of_last_operation (src/utils.py lines
63-73): fold over all slots of all machine schedules, keeping the largest
end time among slots of the given job, starting from 0. -/
def finish_time_of_last_operation (job : Nat) (schedules : List Schedule) : Nat :=
  schedules.foldl (fun acc sched => sched.foldl (ftStep job) acc) 0

/-- A candidate record of the machine-allocation loop: trial makespan,
machine index, inserted slot (ghost), trial schedule — the Python
variables tmp_makespan, machine, slot_of_operation, schedule. -/
abbrev Cand := Nat × Nat × Slot × Schedule

/-- The machine-allocation loop of schedule_in_single_factory (lines
93-102).  m is the machine index of the head of the remaining operation
times, best the best candidate so far (none at entry, as in the Python
code).  machines[m]? is none exactly when Python machine_schedules[machine]
would raise IndexError; the makespan call is on a nonempty list so its
none branch is dead code kept for faithfulness.  A candidate replaces the
best only under a strict greater-than, as in the source. -/
def selectLoop (gene f : Nat) (machines : List Schedule) :
    List Nat → Nat → Option Cand → Option (Option Cand)
  | [], _, best => some best
  | t :: rest, m, best =>
      match machines[m]? with
      | none => none
      | some cur =>
          let sched := insert_operation_to_schedule t gene f cur
          match makespan (sched :: machines) with
          | none => none
          | some tmp =>
              let best' :=
                match best with
                | none => some (tmp, m, insertedSlot t gene f cur, sched)
                | some b =>
                    if b.1 > tmp then some (tmp, m, insertedSlot t gene f cur, sched)
                    else some b
              selectLoop gene f machines rest (m + 1) best'

/-- One iteration of the gene loop of schedule_in_single_factory (lines
84-105).  State: per-job operation counters, machine schedules, and the
ghost trace of committed slots in commitment order.  Failures (none):
jobs[gene] or counters[gene] out of range, the operation row index beyond
the job, a machine index beyond machine_schedules, or an empty operation
row (best_machine stays None and Python machine_schedules[None] raises). -/
def sfStep (jobs : List (List (List Nat)))
    (st : List Nat × List Schedule × List Slot) (gene : Nat) :
    Option (List Nat × List Schedule × List Slot) :=
  match jobs[gene]? with
  | none => none
  | some job =>
      match st.1[gene]? with
      | none => none
      | some cnt =>
          match job[cnt]? with
          | none => none
          | some operation =>
              match selectLoop gene (finish_time_of_last_operation gene st.2.1)
                  st.2.1 operation 0 none with
              | none => none
              | some none => none
              | some (some b) =>
                  some (st.1.set gene (cnt + 1), st.2.1.set b.2.1 b.2.2.2,
                        st.2.2 ++ [b.2.2.1])

/-- The gene loop of schedule_in_single_factory, folded over the genome. -/
def sfLoop (jobs : List (List (List Nat))) :
    List Nat → List Nat × List Schedule × List Slot →
    Option (List Nat × List Schedule × List Slot)
  | [], st => some st
  | g :: rest, st =>
      match sfStep jobs st g with
      | none => none
      | some st2 => sfLoop jobs rest st2

/-- Embedding of schedule_in_single_factory (src/utils.py lines 76-107),
instrumented with the ghost trace of committed slots (one per gene, in
genome order).  Counters start at 0 for each job, machine schedules start
empty. -/
def schedule_in_single_factory_traced (genome : List Nat)
    (jobs : List (List (List Nat))) (n_machines : Nat) :
    Option (List Schedule × List Slot) :=
  match sfLoop jobs genome
      (List.replicate jobs.length 0, List.replicate n_machines [], []) with
  | none => none
  | some st => some (st.2.1, st.2.2)

/-- schedule_in_single_factory as in the source: the machine schedules,
without the ghost trace. -/
def schedule_in_single_factory (genome : List Nat)
    (jobs : List (List (List Nat))) (n_machines : Nat) : Option (List Schedule) :=
  match schedule_in_single_factory_traced genome jobs n_machines with
  | none => none
  | some st => some st.1

/-- Python list subscript semantics for writing subgenomes[fac]: an index
i is valid when -n <= i < n; a negative valid index wraps to n + i;
anything else raises IndexError (none). -/
def pyListIndex (n : Nat) (i : Int) : Option Nat :=
  if 0 ≤ i ∧ i < (n : Int) then some i.toNat
  else if -(n : Int) ≤ i ∧ i < 0 then some (i + n).toNat
  else none

/-- The subgenome-building loop of schedule_in_multiple_factory (lines
117-118): subgenomes[fac].append(op) for each zipped pair. -/
def bsLoop (n_factories : Nat) :
    List (Nat × Int) → List (List Nat) → Option (List (List Nat))
  | [], subs => some subs
  | p :: rest, subs =>
      match pyListIndex n_factories p.2 with
      | none => none
      | some i =>
          match subs[i]? with
          | none => none
          | some cur => bsLoop n_factories rest (subs.set i (cur ++ [p.1]))

/-- The subgenome construction of schedule_in_multiple_factory (lines
116-118), starting from n_factories empty lists.  zip truncates to the
shorter genome, exactly as Python zip does. -/
def buildSubgenomes (pairs : List (Nat × Int)) (n_factories : Nat) :
    Option (List (List Nat)) :=
  bsLoop n_factories pairs (List.replicate n_factories [])

/-- The per-factory decoding loop of schedule_in_multiple_factory (lines
121-125), collecting one factory schedule per subgenome, with the ghost
traces. -/
def decodeFactories (jobs : List (List (List Nat))) (n_machines : Nat) :
    List (List Nat) → Option (List (List Schedule × List Slot))
  | [] => some []
  | sg :: rest =>
      match schedule_in_single_factory_traced sg jobs n_machines with
      | none => none
      | some r =>
          match decodeFactories jobs n_machines rest with
          | none => none
          | some rs => some (r :: rs)

/-- Reassembles the ghost per-factory traces into one trace aligned with
the genome positions: walking the zipped genome pairs, the slot committed
for position k is the next unread entry of the trace of the factory that
position k was assigned to. -/
def interleaveTraces (n_factories : Nat) (traces : List (List Slot)) :
    List (Nat × Int) → List Nat → Option (List Slot)
  | [], _ => some []
  | p :: rest, positions =>
      match pyListIndex n_factories p.2 with
      | none => none
      | some i =>
          match traces[i]?, positions[i]? with
          | some tr, some c =>
              match tr[c]? with
              | none => none
              | some s =>
                  match interleaveTraces n_factories traces rest
                      (positions.set i (c + 1)) with
                  | none => none
                  | some l => some (s :: l)
          | _, _ => none

/-- Embedding of schedule_in_multiple_factory (src/utils.py lines
110-132), instrumented with the global ghost trace: makespan of the
flattened machine schedules plus the per-factory schedules.  Python
raises on makespan of an empty flattened list (n_factories or n_machines
zero), hence the none there. -/
def schedule_in_multiple_factory_traced (operation_genome : List Nat)
    (factory_genome : List Int) (jobs : List (List (List Nat)))
    (n_machines n_factories : Nat) :
    Option (Nat × List (List Schedule) × List Slot) :=
  match buildSubgenomes (operation_genome.zip factory_genome) n_factories with
  | none => none
  | some subgenomes =>
      match decodeFactories jobs n_machines subgenomes with
      | none => none
      | some results =>
          match interleaveTraces n_factories (results.map (·.2))
              (operation_genome.zip factory_genome)
              (List.replicate n_factories 0) with
          | none => none
          | some trace =>
              match makespan ((results.map (·.1)).flatten) with
              | none => none
              | some mk => some (mk, results.map (·.1), trace)

/-- schedule_in_multiple_factory as in the source: (makespan, schedules),
without the ghost trace. -/
def schedule_in_multiple_factory (operation_genome : List Nat)
    (factory_genome : List Int) (jobs : List (List (List Nat)))
    (n_machines n_factories : Nat) : Option (Nat × List (List Schedule)) :=
  match schedule_in_multiple_factory_traced operation_genome factory_genome
      jobs n_machines n_factories with
  | none => none
  | some r => some (r.1, r.2.1)

/-- Validity of a machine schedule relative to a lower bound e: every
slot starts no earlier than the bound, starts no later than it ends, and
bounds the rest.  validFrom 0 is the non-overlapping start-sorted
invariant of the spec. -/
def validFrom : Nat → Schedule → Bool
  | _, [] => true
  | e, x :: rest => decide (e ≤ x.2.1) && decide (x.2.1 ≤ x.2.2) && validFrom x.2.2 rest

theorem le_foldr_max (l : List Nat) (x : Nat) (hx : x ∈ l) : x ≤ l.foldr max 0 := by
  induction l with
  | nil => cases hx
  | cons a l ih =>
      rcases List.mem_cons.mp hx with h | h
      · subst h; exact le_max_left _ _
      · exact le_trans (ih h) (le_max_right _ _)

theorem foldr_max_le (l : List Nat) (E : Nat) (h : ∀ x ∈ l, x ≤ E) :
    l.foldr max 0 ≤ E := by
  induction l with
  | nil => exact Nat.zero_le E
  | cons a l ih =>
      exact max_le (h a (List.mem_cons_self a l))
        (ih fun x hx => h x (List.mem_cons_of_mem a hx))

theorem foldr_max_mem (l : List Nat) (h : l ≠ []) : l.foldr max 0 ∈ l := by
  induction l with
  | nil => exact absurd rfl h
  | cons a l ih =>
      cases l with
      | nil => simp
      | cons b m =>
          rcases le_total ((b :: m).foldr max 0) a with hle | hle
          · simp only [List.foldr_cons] at *
            rw [max_eq_left hle]
            exact List.mem_cons_self _ _
          · simp only [List.foldr_cons] at *
            rw [max_eq_right hle]
            exact List.mem_cons_of_mem a (ih (by simp))

theorem contribution_cons_ne (x : Slot) (l : Schedule) (h : l ≠ []) :
    contribution (x :: l) = contribution l := by
  cases l with
  | nil => exact absurd rfl h
  | cons y m => rfl

theorem contribution_append_single (l : Schedule) (x : Slot) :
    contribution (l ++ [x]) = x.2.2 := by
  induction l with
  | nil => rfl
  | cons a l ih =>
      rw [List.cons_append, contribution_cons_ne _ _ (by simp), ih]

theorem contribution_mem_or_zero (l : Schedule) :
    contribution l = 0 ∨ ∃ x ∈ l, contribution l = x.2.2 := by
  induction l with
  | nil => exact Or.inl rfl
  | cons a l ih =>
      cases l with
      | nil => exact Or.inr ⟨a, List.mem_singleton_self a, rfl⟩
      | cons b m =>
          rw [contribution_cons_ne _ _ (by simp)]
          rcases ih with h | ⟨x, hx, hc⟩
          · exact Or.inl h
          · exact Or.inr ⟨x, List.mem_cons_of_mem a hx, hc⟩

theorem insertLoop_perm (t j f : Nat) :
    ∀ (l : Schedule) (p : Nat),
      ((insertLoop t j f p l).2).Perm ((insertLoop t j f p l).1 :: l) := by
  intro l
  induction l with
  | nil => intro p; simp [insertLoop]
  | cons x rest ih =>
      intro p
      by_cases h : f < x.2.1 ∧ (t : Int) ≤ (x.2.1 : Int) - (max f p : Int)
      · simp [insertLoop, h]
      · simp only [insertLoop, if_neg h]
        exact ((ih x.2.2).cons x).trans (List.Perm.swap _ _ _)

theorem insertLoop_length (t j f : Nat) (l : Schedule) (p : Nat) :
    ((insertLoop t j f p l).2).length = l.length + 1 := by
  have := (insertLoop_perm t j f l p).length_eq
  simpa using this

theorem insertLoop_ne_nil (t j f : Nat) (l : Schedule) (p : Nat) :
    (insertLoop t j f p l).2 ≠ [] := by
  intro h
  have := insertLoop_length t j f l p
  rw [h] at this
  simp at this

theorem insertLoop_slot (t j f : Nat) :
    ∀ (l : Schedule) (p : Nat),
      ∃ st, (insertLoop t j f p l).1 = (j, st, st + t) ∧ f ≤ st := by
  intro l
  induction l with
  | nil =>
      intro p
      exact ⟨max f p, rfl, le_max_left _ _⟩
  | cons x rest ih =>
      intro p
      by_cases h : f < x.2.1 ∧ (t : Int) ≤ (x.2.1 : Int) - (max f p : Int)
      · exact ⟨max f p, by simp [insertLoop, h], le_max_left _ _⟩
      · simp only [insertLoop, if_neg h]
        obtain ⟨st, h1, h2⟩ := ih x.2.2
        exact ⟨st, h1, h2⟩

theorem insertLoop_slot_le (t j f E : Nat) :
    ∀ (l : Schedule) (p : Nat), p ≤ E → f ≤ E → (∀ x ∈ l, x.2.2 ≤ E) →
      (insertLoop t j f p l).1.2.1 ≤ E := by
  intro l
  induction l with
  | nil =>
      intro p hp hf _
      simpa [insertLoop] using max_le hf hp
  | cons x rest ih =>
      intro p hp hf hl
      by_cases h : f < x.2.1 ∧ (t : Int) ≤ (x.2.1 : Int) - (max f p : Int)
      · simpa [insertLoop, h] using max_le hf hp
      · simp only [insertLoop, if_neg h]
        exact ih x.2.2 (hl x (List.mem_cons_self _ _)) hf
          (fun y hy => hl y (List.mem_cons_of_mem x hy))

theorem validFrom_insertLoop (t j f : Nat) :
    ∀ (l : Schedule) (p : Nat), validFrom p l = true →
      validFrom p (insertLoop t j f p l).2 = true := by
  intro l
  induction l with
  | nil =>
      intro p _
      simp only [insertLoop, validFrom]
      have h1 : p ≤ max f p := le_max_right _ _
      have h2 : max f p ≤ max f p + t := Nat.le_add_right _ _
      simp [h1, h2]
  | cons x rest ih =>
      intro p hv
      simp only [validFrom, Bool.and_eq_true, decide_eq_true_eq] at hv
      obtain ⟨⟨hpx, hxx⟩, hrest⟩ := hv
      by_cases h : f < x.2.1 ∧ (t : Int) ≤ (x.2.1 : Int) - (max f p : Int)
      · have hmx : max f p + t ≤ x.2.1 := by
          have h2 := h.2
          omega
        simp only [insertLoop, if_pos h, validFrom, Bool.and_eq_true, decide_eq_true_eq]
        refine ⟨⟨?_, ?_⟩, ⟨?_, ?_⟩, ?_⟩
        · exact le_max_right _ _
        · exact Nat.le_add_right _ _
        · exact hmx
        · exact hxx
        · exact hrest
      · simp only [insertLoop, if_neg h]
        simp only [validFrom, Bool.and_eq_true, decide_eq_true_eq]
        exact ⟨⟨hpx, hxx⟩, ih x.2.2 hrest⟩

theorem insertLoop_contribution (t j f : Nat) :
    ∀ (l : Schedule) (p : Nat),
      contribution l ≤ contribution (insertLoop t j f p l).2 := by
  intro l
  induction l with
  | nil => intro p; exact Nat.zero_le _
  | cons x rest ih =>
      intro p
      by_cases h : f < x.2.1 ∧ (t : Int) ≤ (x.2.1 : Int) - (max f p : Int)
      · simp only [insertLoop, if_pos h]
        exact le_of_eq (contribution_cons_ne _ _ (by simp)).symm
      · simp only [insertLoop, if_neg h]
        cases rest with
        | nil =>
            show x.2.2 ≤ max f x.2.2 + t
            omega
        | cons y rest2 =>
            rw [contribution_cons_ne _ _ (by simp),
              contribution_cons_ne _ _ (insertLoop_ne_nil t j f (y :: rest2) x.2.2)]
            exact ih x.2.2

theorem insertLoop_append_of_big (t j f : Nat) :
    ∀ (l : Schedule) (p : Nat), (∀ x ∈ l, x.2.1 < t) →
      ∃ q, (insertLoop t j f p l).2 = l ++ [(j, max f q, max f q + t)] := by
  intro l
  induction l with
  | nil => intro p _; exact ⟨p, rfl⟩
  | cons x rest ih =>
      intro p hl
      have hx : x.2.1 < t := hl x (List.mem_cons_self _ _)
      have h : ¬(f < x.2.1 ∧ (t : Int) ≤ (x.2.1 : Int) - (max f p : Int)) := by
        rintro ⟨-, h2⟩
        omega
      simp only [insertLoop, if_neg h]
      obtain ⟨q, hq⟩ := ih x.2.2 (fun y hy => hl y (List.mem_cons_of_mem x hy))
      exact ⟨q, by rw [hq]; rfl⟩

theorem insert_perm (t j f : Nat) (l : Schedule) :
    (insert_operation_to_schedule t j f l).Perm (insertedSlot t j f l :: l) := by
  cases l with
  | nil => simp [insert_operation_to_schedule, insertedSlot]
  | cons x rest => exact insertLoop_perm t j f (x :: rest) 0

theorem insert_length (t j f : Nat) (l : Schedule) :
    (insert_operation_to_schedule t j f l).length = l.length + 1 := by
  simpa using (insert_perm t j f l).length_eq

theorem insert_mem_slot (t j f : Nat) (l : Schedule) :
    insertedSlot t j f l ∈ insert_operation_to_schedule t j f l :=
  (insert_perm t j f l).mem_iff.mpr (List.mem_cons_self _ _)

theorem insert_mem_of_mem (t j f : Nat) (l : Schedule) (s : Slot) (hs : s ∈ l) :
    s ∈ insert_operation_to_schedule t j f l :=
  (insert_perm t j f l).mem_iff.mpr (List.mem_cons_of_mem _ hs)

theorem insert_slot_shape (t j f : Nat) (l : Schedule) :
    ∃ st, insertedSlot t j f l = (j, st, st + t) ∧ f ≤ st := by
  cases l with
  | nil => exact ⟨f, rfl, le_refl f⟩
  | cons x rest => exact insertLoop_slot t j f (x :: rest) 0

theorem insert_validFrom (t j f : Nat) (l : Schedule)
    (hv : validFrom 0 l = true) :
    validFrom 0 (insert_operation_to_schedule t j f l) = true := by
  cases l with
  | nil => simp [insert_operation_to_schedule, validFrom]
  | cons x rest => exact validFrom_insertLoop t j f (x :: rest) 0 hv

theorem insert_contribution (t j f : Nat) (l : Schedule) :
    contribution l ≤ contribution (insert_operation_to_schedule t j f l) := by
  cases l with
  | nil => exact Nat.zero_le _
  | cons x rest => exact insertLoop_contribution t j f (x :: rest) 0

theorem insert_append_of_big (t j f : Nat) (l : Schedule)
    (hl : ∀ x ∈ l, x.2.1 < t) :
    ∃ q, insert_operation_to_schedule t j f l = l ++ [(j, max f q, max f q + t)] := by
  cases l with
  | nil =>
      refine ⟨0, ?_⟩
      simp [insert_operation_to_schedule]
  | cons x rest => exact insertLoop_append_of_big t j f (x :: rest) 0 hl

theorem insert_slot_start_le (t j f E : Nat) (l : Schedule)
    (hf : f ≤ E) (hl : ∀ x ∈ l, x.2.2 ≤ E) :
    (insertedSlot t j f l).2.1 ≤ E := by
  cases l with
  | nil => exact hf
  | cons x rest =>
      exact insertLoop_slot_le t j f E (x :: rest) 0 (Nat.zero_le E) hf hl

theorem insert_end_le (t j f E : Nat) (l : Schedule)
    (hf : f ≤ E) (hl : ∀ x ∈ l, x.2.2 ≤ E) :
    ∀ s ∈ insert_operation_to_schedule t j f l, s.2.2 ≤ E + t := by
  intro s hs
  rcases List.mem_cons.mp ((insert_perm t j f l).mem_iff.mp hs) with h | h
  · subst h
    obtain ⟨st, hshape, -⟩ := insert_slot_shape t j f l
    have hst : (insertedSlot t j f l).2.1 ≤ E := insert_slot_start_le t j f E l hf hl
    rw [hshape] at hst ⊢
    simpa using Nat.add_le_add_right hst t
  · exact le_trans (hl s h) (Nat.le_add_right E t)

theorem validFrom_pairwise (e : Nat) (l : Schedule) (hv : validFrom e l = true) :
    l.Pairwise (fun a b => a.2.2 ≤ b.2.1) ∧ ∀ x ∈ l, e ≤ x.2.1 ∧ x.2.1 ≤ x.2.2 := by
  induction l generalizing e with
  | nil => exact ⟨List.Pairwise.nil, by simp⟩
  | cons x rest ih =>
      simp only [validFrom, Bool.and_eq_true, decide_eq_true_eq] at hv
      obtain ⟨⟨hex, hxx⟩, hrest⟩ := hv
      obtain ⟨hp, hall⟩ := ih x.2.2 hrest
      refine ⟨List.Pairwise.cons (fun y hy => (hall y hy).1) hp, ?_⟩
      intro y hy
      rcases List.mem_cons.mp hy with hh | hh
      · subst hh; exact ⟨hex, hxx⟩
      · exact ⟨le_trans hex (le_trans hxx (hall y hh).1), (hall y hh).2⟩

theorem makespan_eq_some (schedules : List Schedule) (h : schedules ≠ []) :
    makespan schedules = some ((schedules.map contribution).foldr max 0) := by
  cases schedules with
  | nil => exact absurd rfl h
  | cons s rest => rfl

theorem foldr_max_set (xs : List Nat) :
    ∀ (m : Nat) (c : Nat), m < xs.length → xs.getD m 0 ≤ c →
      (c :: xs).foldr max 0 = (xs.set m c).foldr max 0 := by
  induction xs with
  | nil => intro m c hm _; cases hm
  | cons a l ih =>
      intro m c hm hle
      cases m with
      | zero =>
          simp only [List.getD_cons_zero] at hle
          simp only [List.set_cons_zero, List.foldr_cons]
          rw [← max_assoc, max_eq_left hle]
      | succ m =>
          simp only [List.getD_cons_succ] at hle
          simp only [List.set_cons_succ, List.foldr_cons]
          rw [← ih m c (by simpa using hm) hle]
          simp only [List.foldr_cons]
          rw [max_left_comm]

theorem makespan_set (machines : List Schedule) (m : Nat) (c : Schedule)
    (hm : m < machines.length)
    (hc : contribution (machines.getD m []) ≤ contribution c) :
    makespan (c :: machines) = makespan (machines.set m c) := by
  have h1 : machines ≠ [] := by
    intro h; rw [h] at hm; cases hm
  have h2 : machines.set m c ≠ [] := by
    intro h
    have := List.length_set machines m c
    rw [h] at this
    simp at this
    rw [← this] at hm; cases hm
  rw [makespan_eq_some _ (by simp), makespan_eq_some _ h2]
  congr 1
  rw [List.map_cons, List.map_set]
  have hx : (List.map contribution machines).getD m 0 ≤ contribution c := by
    rw [List.getD_eq_getElem _ _ (by simpa using hm), List.getElem_map]
    rw [List.getD_eq_getElem _ _ hm] at hc
    exact hc
  exact foldr_max_set _ m (contribution c) (by simpa using hm) hx

theorem foldl_ftStep_ge (j : Nat) :
    ∀ (l : Schedule) (acc : Nat), acc ≤ l.foldl (ftStep j) acc := by
  intro l
  induction l with
  | nil => intro acc; exact le_refl acc
  | cons s rest ih =>
      intro acc
      refine le_trans ?_ (ih (ftStep j acc s))
      unfold ftStep
      split
      · omega
      · exact le_refl acc

theorem foldl_ftStep_mem (j : Nat) :
    ∀ (l : Schedule) (acc : Nat) (s : Slot), s ∈ l → s.1 = j →
      s.2.2 ≤ l.foldl (ftStep j) acc := by
  intro l
  induction l with
  | nil => intro acc s hs; cases hs
  | cons x rest ih =>
      intro acc s hs hj
      rcases List.mem_cons.mp hs with h | h
      · subst h
        refine le_trans ?_ (foldl_ftStep_ge j rest (ftStep j acc s))
        unfold ftStep
        split
        · omega
        · rename_i hcond
          push_neg at hcond
          exact hcond hj
      · exact ih (ftStep j acc x) s h hj

theorem foldl_ftStep_le (j E : Nat) :
    ∀ (l : Schedule) (acc : Nat), acc ≤ E → (∀ s ∈ l, s.2.2 ≤ E) →
      l.foldl (ftStep j) acc ≤ E := by
  intro l
  induction l with
  | nil => intro acc hacc _; exact hacc
  | cons x rest ih =>
      intro acc hacc hl
      refine ih (ftStep j acc x) ?_ (fun s hs => hl s (List.mem_cons_of_mem x hs))
      unfold ftStep
      split
      · exact hl x (List.mem_cons_self _ _)
      · exact hacc

theorem foldl_outer_ge (j : Nat) :
    ∀ (ls : List Schedule) (acc : Nat),
      acc ≤ ls.foldl (fun acc sched => sched.foldl (ftStep j) acc) acc := by
  intro ls
  induction ls with
  | nil => intro acc; exact le_refl _
  | cons a rest ih =>
      intro acc
      simp only [List.foldl_cons]
      exact le_trans (foldl_ftStep_ge j a acc) (ih _)

theorem finish_time_ge (j : Nat) (schedules : List Schedule) (sched : Schedule)
    (s : Slot) (hsched : sched ∈ schedules) (hs : s ∈ sched) (hj : s.1 = j) :
    s.2.2 ≤ finish_time_of_last_operation j schedules := by
  unfold finish_time_of_last_operation
  have main : ∀ (ls : List Schedule) (acc : Nat), sched ∈ ls →
      s.2.2 ≤ ls.foldl (fun acc sched => sched.foldl (ftStep j) acc) acc := by
    intro ls
    induction ls with
    | nil => intro acc hmem; cases hmem
    | cons a rest ih =>
        intro acc hmem
        simp only [List.foldl_cons]
        rcases List.mem_cons.mp hmem with hh | hh
        · subst hh
          exact le_trans (foldl_ftStep_mem j sched acc s hs hj)
            (foldl_outer_ge j rest _)
        · exact ih _ hh
  exact main schedules 0 hsched

theorem finish_time_le (j E : Nat) (schedules : List Schedule)
    (h : ∀ sched ∈ schedules, ∀ s ∈ sched, s.2.2 ≤ E) :
    finish_time_of_last_operation j schedules ≤ E := by
  unfold finish_time_of_last_operation
  have main : ∀ (ls : List Schedule) (acc : Nat), acc ≤ E →
      (∀ sched ∈ ls, ∀ s ∈ sched, s.2.2 ≤ E) →
      ls.foldl (fun acc sched => sched.foldl (ftStep j) acc) acc ≤ E := by
    intro ls
    induction ls with
    | nil => intro acc hacc _; exact hacc
    | cons a rest ih =>
        intro acc hacc hall
        simp only [List.foldl_cons]
        refine ih _ ?_ (fun sc hsc => hall sc (List.mem_cons_of_mem a hsc))
        exact foldl_ftStep_le j E a acc hacc (hall a (List.mem_cons_self _ _))
  exact main schedules 0 (Nat.zero_le E) h

/-- The trial makespan the decoder computes for machine idx and
processing time t: makespan of the trial schedule consed onto all
current machine schedules (the value under the some of makespan). -/
def trialMk (gene f : Nat) (machines : List Schedule) (idx t : Nat) : Nat :=
  (((insert_operation_to_schedule t gene f (machines.getD idx [])) :: machines).map
    contribution).foldr max 0

/-- The candidate record the machine-allocation loop builds for machine
idx with processing time t. -/
def cand (gene f : Nat) (machines : List Schedule) (idx t : Nat) : Cand :=
  (trialMk gene f machines idx t, idx,
   insertedSlot t gene f (machines.getD idx []),
   insert_operation_to_schedule t gene f (machines.getD idx []))

/-- The best-candidate update of the machine-allocation loop: a candidate
replaces the best only when the current best has a strictly larger trial
makespan. -/
def pick (b : Option Cand) (c : Cand) : Option Cand :=
  match b with
  | none => some c
  | some b0 => if b0.1 > c.1 then some c else some b0

/-- The candidates the machine-allocation loop enumerates, starting at
machine index i. -/
def candList (gene f : Nat) (machines : List Schedule) : List Nat → Nat → List Cand
  | [], _ => []
  | t :: rest, i => cand gene f machines i t :: candList gene f machines rest (i + 1)

/-- The default candidate used with getD in index-based statements. -/
def cdef : Cand := (0, 0, (0, 0, 0), [])

theorem candList_length (gene f : Nat) (machines : List Schedule) :
    ∀ (ops : List Nat) (i : Nat),
      (candList gene f machines ops i).length = ops.length := by
  intro ops
  induction ops with
  | nil => intro i; rfl
  | cons t rest ih => intro i; simp [candList, ih]

theorem candList_getD (gene f : Nat) (machines : List Schedule) :
    ∀ (ops : List Nat) (i k : Nat), k < ops.length →
      (candList gene f machines ops i).getD k cdef =
        cand gene f machines (i + k) (ops.getD k 0) := by
  intro ops
  induction ops with
  | nil => intro i k hk; cases hk
  | cons t rest ih =>
      intro i k hk
      cases k with
      | zero => simp [candList]
      | succ k =>
          have : i + (k + 1) = (i + 1) + k := by omega
      -- use the induction hypothesis at the shifted start index
          rw [this]
          simpa [candList] using ih (i + 1) k (by simpa using hk)

theorem selectLoop_bounds (gene f : Nat) (machines : List Schedule) :
    ∀ (ops : List Nat) (i : Nat) (best : Option Cand) (r : Option Cand),
      selectLoop gene f machines ops i best = some r →
      ∀ k, k < ops.length → i + k < machines.length := by
  intro ops
  induction ops with
  | nil => intro i best r _ k hk; cases hk
  | cons t rest ih =>
      intro i best r h k hk
      rw [selectLoop] at h
      cases hmi : machines[i]? with
      | none => rw [hmi] at h; cases h
      | some cur =>
          rw [hmi] at h
          have hi : i < machines.length := by
            rcases List.getElem?_eq_some.mp hmi with ⟨hlt, -⟩
            exact hlt
          cases k with
          | zero => simpa using hi
          | succ k =>
              have hk2 : k < rest.length := by simpa using hk
              have := ih (i + 1) _ r h k hk2
              omega

theorem selectLoop_eq_foldl (gene f : Nat) (machines : List Schedule) :
    ∀ (ops : List Nat) (i : Nat) (best : Option Cand),
      (∀ k, k < ops.length → i + k < machines.length) →
      selectLoop gene f machines ops i best =
        some (List.foldl pick best (candList gene f machines ops i)) := by
  intro ops
  induction ops with
  | nil => intro i best _; rfl
  | cons t rest ih =>
      intro i best hbound
      have hi : i < machines.length := by
        have := hbound 0 (by simp)
        simpa using this
      have hmi : machines[i]? = some (machines.getD i []) := by
        rw [List.getElem?_eq_getElem hi, List.getD_eq_getElem _ _ hi]
      rw [selectLoop, hmi]
      show selectLoop gene f machines rest (i + 1)
          (pick best (cand gene f machines i t)) = _
      rw [ih (i + 1) _ (fun k hk => by
        have := hbound (k + 1) (by simpa using hk)
        omega)]
      rfl

theorem foldl_pick_char :
    ∀ (cands : List Cand) (b0 b : Cand),
      List.foldl pick (some b0) cands = some b →
      (b = b0 ∧ ∀ m, m < cands.length → b0.1 ≤ (cands.getD m cdef).1) ∨
      (∃ n, n < cands.length ∧ b = cands.getD n cdef ∧ b.1 < b0.1 ∧
        (∀ m, m < cands.length → b.1 ≤ (cands.getD m cdef).1) ∧
        (∀ m, m < n → b.1 < (cands.getD m cdef).1)) := by
  intro cands
  induction cands with
  | nil =>
      intro b0 b h
      simp only [List.foldl_nil, Option.some_inj] at h
      exact Or.inl ⟨h.symm, fun m hm => absurd hm (by simp)⟩
  | cons c cs ih =>
      intro b0 b h
      simp only [List.foldl_cons] at h
      by_cases hcmp : b0.1 > c.1
      · rw [show pick (some b0) c = some c from by simp [pick, hcmp]] at h
        rcases ih c b h with ⟨hb, hall⟩ | ⟨n, hn, hb, hlt, hall, hbefore⟩
        · subst hb
          refine Or.inr ⟨0, by simp, by simp, hcmp, ?_, fun m hm => absurd hm (by simp)⟩
          intro m hm
          cases m with
          | zero => simp
          | succ m => simpa using hall m (by simpa using hm)
        · refine Or.inr ⟨n + 1, by simpa using hn, by simpa using hb,
            lt_trans hlt hcmp, ?_, ?_⟩
          · intro m hm
            cases m with
            | zero => simpa using le_of_lt hlt
            | succ m => simpa using hall m (by simpa using hm)
          · intro m hm
            cases m with
            | zero => simpa using hlt
            | succ m => simpa using hbefore m (by simpa using hm)
      · rw [show pick (some b0) c = some b0 from by simp [pick, hcmp]] at h
        push_neg at hcmp
        rcases ih b0 b h with ⟨hb, hall⟩ | ⟨n, hn, hb, hlt, hall, hbefore⟩
        · subst hb
          refine Or.inl ⟨rfl, ?_⟩
          intro m hm
          cases m with
          | zero => simpa using hcmp
          | succ m => simpa using hall m (by simpa using hm)
        · refine Or.inr ⟨n + 1, by simpa using hn, by simpa using hb, hlt, ?_, ?_⟩
          · intro m hm
            cases m with
            | zero => simpa using le_of_lt (lt_of_lt_of_le hlt hcmp)
            | succ m => simpa using hall m (by simpa using hm)
          · intro m hm
            cases m with
            | zero => simpa using lt_of_lt_of_le hlt hcmp
            | succ m => simpa using hbefore m (by simpa using hm)

/-- Characterization of a successful machine-allocation loop: the
committed candidate is the one of the machine with index r.2.1, its trial
makespan r.1 is minimal among all enumerated machines, and every machine
with a smaller index has a strictly larger trial makespan — the
first-minimum tie-break of the source. -/
theorem selectLoop_char (gene f : Nat) (machines : List Schedule)
    (ops : List Nat) (r : Cand)
    (h : selectLoop gene f machines ops 0 none = some (some r)) :
    r.2.1 < ops.length ∧ ops.length ≤ machines.length ∧
      r = cand gene f machines r.2.1 (ops.getD r.2.1 0) ∧
      (∀ k, k < ops.length → r.1 ≤ trialMk gene f machines k (ops.getD k 0)) ∧
      (∀ k, k < r.2.1 → r.1 < trialMk gene f machines k (ops.getD k 0)) := by
  have hbound : ∀ k, k < ops.length → k < machines.length := by
    intro k hk
    simpa using selectLoop_bounds gene f machines ops 0 none (some r) h k hk
  have hlen : ops.length ≤ machines.length := by
    cases ops with
    | nil => simp
    | cons t rest =>
        by_contra hcon
        push_neg at hcon
        have := hbound ((t :: rest).length - 1) (by simp)
        omega
  rw [selectLoop_eq_foldl gene f machines ops 0 none (fun k hk => by
    simpa using hbound k hk)] at h
  cases ops with
  | nil => cases h
  | cons t rest =>
      simp only [candList, List.foldl_cons] at h
      rw [show pick none (cand gene f machines 0 t) =
        some (cand gene f machines 0 t) from rfl] at h
      have hkey : ∀ m, m < (t :: rest).length →
          ((candList gene f machines (t :: rest) 0).getD m cdef).1 =
            trialMk gene f machines m ((t :: rest).getD m 0) := by
        intro m hm
        rw [candList_getD gene f machines (t :: rest) 0 m hm]
        simp [cand]
      have hself : ∀ m, m < (t :: rest).length →
          (candList gene f machines (t :: rest) 0).getD m cdef =
            cand gene f machines m ((t :: rest).getD m 0) := by
        intro m hm
        simpa using candList_getD gene f machines (t :: rest) 0 m hm
      rcases foldl_pick_char (candList gene f machines rest 1)
          (cand gene f machines 0 t) r (Option.some_inj.mp h) with
        ⟨hb, hall⟩ | ⟨n, hn, hb, hlt, hall, hbefore⟩
      · subst hb
        have hidx : (cand gene f machines 0 t).2.1 = 0 := rfl
        refine ⟨by simp [hidx], hlen, ?_, ?_, ?_⟩
        · rw [hidx]; rfl
        · intro k hk
          cases k with
          | zero => exact le_refl _
          | succ k =>
              have hk2 : k < rest.length := by simpa using hk
              have := hall k (by simpa [candList_length])
              rw [candList_getD gene f machines rest 1 k hk2,
                show (1 + k) = k + 1 from by omega] at this
              simpa [cand] using this
        · intro k hk
          rw [hidx] at hk
          cases hk
      · have hn2 : n < rest.length := by simpa [candList_length] using hn
        rw [candList_getD gene f machines rest 1 n hn2,
          show (1 + n) = n + 1 from by omega] at hb
        have hidx : r.2.1 = n + 1 := by rw [hb]; rfl
        refine ⟨?_, hlen, ?_, ?_, ?_⟩
        · rw [hidx]; simpa using hn2
        · rw [hidx, hb]
          have hgd : (t :: rest).getD (n + 1) 0 = rest.getD n 0 := by simp
          rw [hgd]
        · intro k hk
          cases k with
          | zero => simpa [trialMk, cand] using le_of_lt hlt
          | succ k =>
              have hk2 : k < rest.length := by simpa using hk
              have := hall k (by simpa [candList_length])
              rw [candList_getD gene f machines rest 1 k hk2] at this
              have heq : (1 + k) = k + 1 := by omega
              rw [heq] at this
              simpa [cand] using this
        · intro k hk
          rw [hidx] at hk
          cases k with
          | zero => simpa [trialMk, cand] using hlt
          | succ k =>
              have hk2 : k < n := by omega
              have := hbefore k (by omega)
              rw [candList_getD gene f machines rest 1 k (by omega)] at this
              have heq : (1 + k) = k + 1 := by omega
              rw [heq] at this
              simpa [cand] using this

/-- Total number of committed slots across a list of machine schedules. -/
def totalSlots (ms : List Schedule) : Nat := (ms.map List.length).sum

theorem getD_mem {α : Type} (l : List α) (k : Nat) (d : α) (hk : k < l.length) :
    l.getD k d ∈ l := by
  induction l generalizing k with
  | nil => cases hk
  | cons a rest ih =>
      cases k with
      | zero => simp
      | succ k =>
          simp only [List.getD_cons_succ, List.mem_cons]
          exact Or.inr (ih k (by simpa using hk))

theorem sum_map_length_set (l : List Schedule) :
    ∀ (k : Nat) (s : Schedule), k < l.length →
      totalSlots (l.set k s) + (l.getD k []).length = totalSlots l + s.length := by
  induction l with
  | nil => intro k s hk; cases hk
  | cons a rest ih =>
      intro k s hk
      cases k with
      | zero => simp [totalSlots]; omega
      | succ k =>
          have := ih k s (by simpa using hk)
          simp only [List.set_cons_succ, List.getD_cons_succ, totalSlots,
            List.map_cons, List.sum_cons] at *
          omega

theorem mem_flatten_set (l : List Schedule) :
    ∀ (k : Nat) (x : Schedule), k < l.length →
      (∀ a ∈ l.getD k [], a ∈ x) →
      ∀ a ∈ l.flatten, a ∈ (l.set k x).flatten := by
  induction l with
  | nil => intro k x hk; cases hk
  | cons b rest ih =>
      intro k x hk hsub a ha
      cases k with
      | zero =>
          simp only [List.set_cons_zero, List.flatten_cons, List.mem_append] at ha ⊢
          rcases ha with ha | ha
          · exact Or.inl (hsub a (by simpa using ha))
          · exact Or.inr ha
      | succ k =>
          simp only [List.set_cons_succ, List.flatten_cons, List.mem_append] at ha ⊢
          rcases ha with ha | ha
          · exact Or.inl ha
          · exact Or.inr (ih k x (by simpa using hk) (by simpa using hsub) a ha)

theorem mem_flatten_of_set_mem (l : List Schedule) (k : Nat) (x : Schedule)
    (hk : k < l.length) (a : Slot) (ha : a ∈ x) : a ∈ (l.set k x).flatten := by
  refine List.mem_flatten.mpr ⟨x, ?_, ha⟩
  exact List.mem_set l k hk x

/-- Destructuring of a successful gene step of the decoder: all the
intermediate lookups succeeded and the new state commits the best
candidate of the machine-allocation loop. -/
theorem sfStep_some (jobs : List (List (List Nat)))
    (st : List Nat × List Schedule × List Slot) (gene : Nat)
    (st2 : List Nat × List Schedule × List Slot)
    (h : sfStep jobs st gene = some st2) :
    ∃ job cnt operation r,
      jobs[gene]? = some job ∧ st.1[gene]? = some cnt ∧ job[cnt]? = some operation ∧
      selectLoop gene (finish_time_of_last_operation gene st.2.1) st.2.1 operation 0 none
        = some (some r) ∧
      st2 = (st.1.set gene (cnt + 1), st.2.1.set r.2.1 r.2.2.2, st.2.2 ++ [r.2.2.1]) := by
  unfold sfStep at h
  split at h
  · cases h
  · rename_i job hj
    split at h
    · cases h
    · rename_i cnt hc
      split at h
      · cases h
      · rename_i operation hop
        split at h
        · cases h
        · cases h
        · rename_i r hr
          exact ⟨job, cnt, operation, r, hj, hc, hop, hr, (Option.some_inj.mp h).symm⟩

/-- The data of a committed candidate, phrased through the machine index:
in a successful step the machine schedules are updated at index k with
the insertion result for that machine, and the trace records the inserted
slot. -/
theorem sfStep_commit (jobs : List (List (List Nat)))
    (st : List Nat × List Schedule × List Slot) (gene : Nat)
    (st2 : List Nat × List Schedule × List Slot)
    (h : sfStep jobs st gene = some st2) :
    ∃ k t cnt,
      k < st.2.1.length ∧
      st.1[gene]? = some cnt ∧
      st2.1 = st.1.set gene (cnt + 1) ∧
      st2.2.1 = st.2.1.set k
        (insert_operation_to_schedule t gene
          (finish_time_of_last_operation gene st.2.1) (st.2.1.getD k [])) ∧
      st2.2.2 = st.2.2 ++
        [insertedSlot t gene (finish_time_of_last_operation gene st.2.1)
          (st.2.1.getD k [])] := by
  obtain ⟨job, cnt, operation, r, -, hc, -, hsel, hst2⟩ := sfStep_some jobs st gene st2 h
  obtain ⟨hk, hlen, hcand, -, -⟩ :=
    selectLoop_char gene (finish_time_of_last_operation gene st.2.1) st.2.1 operation r hsel
  have hsched : r.2.2.2 = insert_operation_to_schedule (operation.getD r.2.1 0) gene
      (finish_time_of_last_operation gene st.2.1) (st.2.1.getD r.2.1 []) :=
    congrArg (fun x => x.2.2.2) hcand
  have hslot : r.2.2.1 = insertedSlot (operation.getD r.2.1 0) gene
      (finish_time_of_last_operation gene st.2.1) (st.2.1.getD r.2.1 []) :=
    congrArg (fun x => x.2.2.1) hcand
  refine ⟨r.2.1, operation.getD r.2.1 0, cnt, lt_of_lt_of_le hk hlen, hc, ?_, ?_, ?_⟩
  · rw [hst2]
  · rw [hst2]
    show st.2.1.set r.2.1 r.2.2.2 = _
    rw [hsched]
  · rw [hst2]
    show st.2.2 ++ [r.2.2.1] = _
    rw [hslot]

theorem sfLoop_invariant (jobs : List (List (List Nat)))
    (P : List Nat × List Schedule × List Slot → Prop)
    (hstep : ∀ st g st2, P st → sfStep jobs st g = some st2 → P st2) :
    ∀ (genome : List Nat) (st out : List Nat × List Schedule × List Slot),
      sfLoop jobs genome st = some out → P st → P out := by
  intro genome
  induction genome with
  | nil =>
      intro st out h hP
      cases h
      exact hP
  | cons g rest ih =>
      intro st out h hP
      rw [sfLoop] at h
      split at h
      · cases h
      · rename_i st2 hst2
        exact ih st2 out h (hstep st g st2 hP hst2)

theorem sfLoop_count (jobs : List (List (List Nat))) :
    ∀ (genome : List Nat) (st out : List Nat × List Schedule × List Slot),
      sfLoop jobs genome st = some out →
      totalSlots out.2.1 = totalSlots st.2.1 + genome.length := by
  intro genome
  induction genome with
  | nil =>
      intro st out h
      cases h
      simp
  | cons g rest ih =>
      intro st out h
      rw [sfLoop] at h
      split at h
      · cases h
      · rename_i st2 hst2
        obtain ⟨k, t, cnt, hk, -, -, hm, -⟩ := sfStep_commit jobs st g st2 hst2
        have h1 := ih st2 out h
        have h2 := sum_map_length_set st.2.1 k
          (insert_operation_to_schedule t g
            (finish_time_of_last_operation g st.2.1) (st.2.1.getD k [])) hk
        have h3 := insert_length t g
          (finish_time_of_last_operation g st.2.1) (st.2.1.getD k [])
        rw [hm] at h1
        simp only [List.length_cons]
        omega

/-- All machine schedules of a successful single-factory decode satisfy
the validity invariant. -/
theorem single_factory_valid (genome : List Nat) (jobs : List (List (List Nat)))
    (n_machines : Nat) (ms : List Schedule) (tr : List Slot)
    (h : schedule_in_single_factory_traced genome jobs n_machines = some (ms, tr)) :
    ∀ m ∈ ms, validFrom 0 m = true := by
  unfold schedule_in_single_factory_traced at h
  split at h
  · cases h
  · rename_i st hst
    have hP := sfLoop_invariant jobs (fun st => ∀ m ∈ st.2.1, validFrom 0 m = true)
      (by
        intro st g st2 hP h2
        obtain ⟨k, t, cnt, hk, -, -, hm, -⟩ := sfStep_commit jobs st g st2 h2
        intro m hmem
        rw [hm] at hmem
        rcases List.mem_or_eq_of_mem_set hmem with hmem | hmem
        · exact hP m hmem
        · subst hmem
          exact insert_validFrom _ _ _ _ (hP _ (getD_mem st.2.1 k [] hk)))
      genome _ st hst
      (by
        intro m hmem
        rw [List.eq_of_mem_replicate hmem]
        rfl)
    have hms : ms = st.2.1 :=
      (congrArg Prod.fst (Option.some_inj.mp h)).symm
    rw [hms]
    exact hP

/-- A successful single-factory decode commits exactly one slot per gene. -/
theorem single_factory_count (genome : List Nat) (jobs : List (List (List Nat)))
    (n_machines : Nat) (ms : List Schedule) (tr : List Slot)
    (h : schedule_in_single_factory_traced genome jobs n_machines = some (ms, tr)) :
    totalSlots ms = genome.length := by
  unfold schedule_in_single_factory_traced at h
  split at h
  · cases h
  · rename_i st hst
    have hms : ms = st.2.1 :=
      (congrArg Prod.fst (Option.some_inj.mp h)).symm
    have := sfLoop_count jobs genome _ st hst
    rw [hms, this]
    simp [totalSlots, List.map_replicate]

/-- In a successful single-factory decode, the trace of committed slots,
filtered to one job, is a chain: each next slot starts no earlier than
the previous one ends.  The trace order is the genome order, hence the
per-factory operation-index order of the job. -/
theorem single_factory_trace_chain (genome : List Nat)
    (jobs : List (List (List Nat))) (n_machines : Nat)
    (ms : List Schedule) (tr : List Slot)
    (h : schedule_in_single_factory_traced genome jobs n_machines = some (ms, tr)) :
    ∀ j, List.Chain' (fun a b => a.2.2 ≤ b.2.1)
      (tr.filter (fun s => s.1 == j)) := by
  unfold schedule_in_single_factory_traced at h
  split at h
  · cases h
  · rename_i st hst
    have htr : tr = st.2.2 :=
      (congrArg Prod.snd (Option.some_inj.mp h)).symm
    have hP := sfLoop_invariant jobs
      (fun st => (∀ s ∈ st.2.2, s ∈ st.2.1.flatten) ∧
        ∀ j, List.Chain' (fun a b => a.2.2 ≤ b.2.1)
          (st.2.2.filter (fun s => s.1 == j)))
      (by
        intro st g st2 hP h2
        obtain ⟨k, t, cnt, hk, -, -, hm, htr2⟩ := sfStep_commit jobs st g st2 h2
        set f := finish_time_of_last_operation g st.2.1 with hf
        set old := st.2.1.getD k [] with hold
        obtain ⟨stt, hshape, hfst⟩ := insert_slot_shape t g f old
        constructor
        · intro s hs
          rw [htr2] at hs
          rw [hm]
          rcases List.mem_append.mp hs with hs | hs
          · refine mem_flatten_set st.2.1 k _ hk ?_ s (hP.1 s hs)
            intro a ha
            exact insert_mem_of_mem t g f old a ha
          · have hseq : s = insertedSlot t g f old := by simpa using hs
            rw [hseq]
            exact mem_flatten_of_set_mem st.2.1 k _ hk _ (insert_mem_slot t g f old)
        · intro j
          rw [htr2, List.filter_append]
          by_cases hj : g = j
          · subst hj
            have hfilter : List.filter (fun s => s.1 == g) [insertedSlot t g f old]
                = [insertedSlot t g f old] := by
              rw [List.filter_cons]
              rw [hshape]
              simp
            rw [hfilter]
            rw [List.chain'_append]
            refine ⟨hP.2 g, List.chain'_singleton _, ?_⟩
            intro x hx y hy
            have hyy : insertedSlot t g f old = y := by simpa using hy
            have hxmem : x ∈ st.2.2.filter (fun s => s.1 == g) :=
              List.mem_of_mem_getLast? hx
            have hxtr : x ∈ st.2.2 := List.mem_of_mem_filter hxmem
            have hxg : x.1 = g := by
              have := List.of_mem_filter hxmem
              simpa using this
            have hxfl : x ∈ st.2.1.flatten := hP.1 x hxtr
            obtain ⟨sched, hsched, hxs⟩ := List.mem_flatten.mp hxfl
            have hxf : x.2.2 ≤ f := finish_time_ge g st.2.1 sched x hsched hxs hxg
            rw [← hyy, hshape]
            exact le_trans hxf hfst
          · have hfilter : List.filter (fun s => s.1 == j) [insertedSlot t g f old]
                = [] := by
              rw [List.filter_cons]
              rw [hshape]
              simp [hj]
            rw [hfilter, List.append_nil]
            exact hP.2 j)
      genome _ st hst
      (by exact ⟨by simp, by simp⟩)
    rw [htr]
    exact hP.2

theorem sum_map_length_set_nat (l : List (List Nat)) :
    ∀ (k : Nat) (s : List Nat), k < l.length →
      ((l.set k s).map List.length).sum + (l.getD k []).length =
        (l.map List.length).sum + s.length := by
  induction l with
  | nil => intro k s hk; cases hk
  | cons a rest ih =>
      intro k s hk
      cases k with
      | zero => simp; omega
      | succ k =>
          have := ih k s (by simpa using hk)
          simp only [List.set_cons_succ, List.getD_cons_succ,
            List.map_cons, List.sum_cons] at *
          omega

theorem getD_replicate {α : Type} (d : α) :
    ∀ (n k : Nat), (List.replicate n d).getD k d = d := by
  intro n
  induction n with
  | zero => intro k; cases k <;> rfl
  | succ n ih =>
      intro k
      cases k with
      | zero => rfl
      | succ k => simp [List.replicate, ih k]

theorem foldr_max_replicate_zero : ∀ (n : Nat), (List.replicate n 0).foldr max 0 = 0 := by
  intro n
  induction n with
  | zero => rfl
  | succ n ih => simpa [List.replicate] using ih

theorem finish_time_empty (j : Nat) (n : Nat) :
    finish_time_of_last_operation j (List.replicate n []) = 0 := by
  refine Nat.le_antisymm ?_ (Nat.zero_le _)
  refine finish_time_le j 0 _ ?_
  intro sched hsched s hs
  rw [List.eq_of_mem_replicate hsched] at hs
  cases hs

theorem foldl_pick_keep (b0 : Cand) :
    ∀ (cands : List Cand), (∀ c ∈ cands, b0.1 ≤ c.1) →
      List.foldl pick (some b0) cands = some b0 := by
  intro cands
  induction cands with
  | nil => intro _; rfl
  | cons c cs ih =>
      intro hall
      have hc : ¬ b0.1 > c.1 := not_lt.mpr (hall c (List.mem_cons_self _ _))
      simp only [List.foldl_cons, pick, if_neg hc]
      exact ih (fun d hd => hall d (List.mem_cons_of_mem c hd))

theorem candList_mem (gene f : Nat) (machines : List Schedule) :
    ∀ (ops : List Nat) (i : Nat) (c : Cand), c ∈ candList gene f machines ops i →
      ∃ k, k < ops.length ∧ c = cand gene f machines (i + k) (ops.getD k 0) := by
  intro ops
  induction ops with
  | nil => intro i c hc; cases hc
  | cons t rest ih =>
      intro i c hc
      rcases List.mem_cons.mp hc with hc | hc
      · exact ⟨0, by simp, by simpa using hc⟩
      · obtain ⟨k, hk, hck⟩ := ih (i + 1) c hc
        refine ⟨k + 1, by simpa using hk, ?_⟩
        rw [hck]
        have : (i + 1) + k = i + (k + 1) := by omega
        rw [this]
        simp

theorem bsLoop_sum (n_factories : Nat) :
    ∀ (pairs : List (Nat × Int)) (subs out : List (List Nat)),
      bsLoop n_factories pairs subs = some out →
      (out.map List.length).sum = (subs.map List.length).sum + pairs.length ∧
        out.length = subs.length := by
  intro pairs
  induction pairs with
  | nil =>
      intro subs out h
      cases h
      simp
  | cons p rest ih =>
      intro subs out h
      rw [bsLoop] at h
      split at h
      · cases h
      · rename_i i hi
        split at h
        · cases h
        · rename_i cur hcur
          have hlt : i < subs.length := by
            rcases List.getElem?_eq_some.mp hcur with ⟨hl, -⟩
            exact hl
          have hc : subs.getD i [] = cur := by
            rw [List.getD_eq_getElem _ _ hlt]
            rcases List.getElem?_eq_some.mp hcur with ⟨hl, he⟩
            exact he
          obtain ⟨h1, h2⟩ := ih _ out h
          have h3 := sum_map_length_set_nat subs i (cur ++ [p.1]) hlt
          rw [hc] at h3
          constructor
          · simp only [List.length_cons]
            simp only [List.length_append, List.length_cons, List.length_nil] at h3
            omega
          · rw [h2, List.length_set]

theorem pyListIndex_none (n : Nat) (i : Int)
    (h : i < -(n : Int) ∨ (n : Int) ≤ i) : pyListIndex n i = none := by
  unfold pyListIndex
  rw [if_neg (by omega), if_neg (by omega)]

theorem pyListIndex_norm (n : Nat) (i : Int) (h1 : -(n : Int) ≤ i) (_hn : i < n) :
    pyListIndex n (if i < 0 then i + n else i) = pyListIndex n i := by
  by_cases hneg : i < 0
  · rw [if_pos hneg]
    unfold pyListIndex
    rw [if_pos (by omega), if_neg (by omega), if_pos (by omega)]
  · rw [if_neg hneg]

theorem bsLoop_none_of_bad (n_factories : Nat) :
    ∀ (pairs : List (Nat × Int)) (subs : List (List Nat)),
      (∃ p ∈ pairs, pyListIndex n_factories p.2 = none) →
      bsLoop n_factories pairs subs = none := by
  intro pairs
  induction pairs with
  | nil =>
      intro subs h
      obtain ⟨p, hp, -⟩ := h
      cases hp
  | cons q rest ih =>
      intro subs h
      rw [bsLoop]
      split
      · rfl
      · rename_i i hq
        split
        · rfl
        · rename_i cur hcur
          obtain ⟨p, hp, hbad⟩ := h
          rcases List.mem_cons.mp hp with hp | hp
          · subst hp
            rw [hq] at hbad
            cases hbad
          · exact ih _ ⟨p, hp, hbad⟩

theorem bsLoop_congr (n_factories : Nat) (g : Int → Int) :
    ∀ (pairs : List (Nat × Int)) (subs : List (List Nat)),
      (∀ p ∈ pairs, pyListIndex n_factories (g p.2) = pyListIndex n_factories p.2) →
      bsLoop n_factories (pairs.map (fun p => (p.1, g p.2))) subs =
        bsLoop n_factories pairs subs := by
  intro pairs
  induction pairs with
  | nil => intro subs _; rfl
  | cons q rest ih =>
      intro subs hall
      simp only [List.map_cons]
      rw [bsLoop, bsLoop]
      rw [hall q (List.mem_cons_self _ _)]
      split
      · rfl
      · rename_i i hq
        split
        · rfl
        · rename_i cur hcur
          exact ih _ (fun p hp => hall p (List.mem_cons_of_mem q hp))

theorem interleave_congr (n_factories : Nat) (g : Int → Int)
    (traces : List (List Slot)) :
    ∀ (pairs : List (Nat × Int)) (positions : List Nat),
      (∀ p ∈ pairs, pyListIndex n_factories (g p.2) = pyListIndex n_factories p.2) →
      interleaveTraces n_factories traces (pairs.map (fun p => (p.1, g p.2))) positions =
        interleaveTraces n_factories traces pairs positions := by
  intro pairs
  induction pairs with
  | nil => intro positions _; rfl
  | cons q rest ih =>
      intro positions hall
      simp only [List.map_cons]
      rw [interleaveTraces, interleaveTraces]
      rw [hall q (List.mem_cons_self _ _)]
      split
      · rfl
      · rename_i i hq
        split
        · rename_i tr c htr hc
          split
          · rfl
          · rename_i s hs
            rw [ih _ (fun p hp => hall p (List.mem_cons_of_mem q hp))]
        · rfl

theorem zip_take_min {α β : Type} :
    ∀ (l1 : List α) (l2 : List β),
      l1.zip l2 =
        (l1.take (min l1.length l2.length)).zip (l2.take (min l1.length l2.length)) := by
  intro l1
  induction l1 with
  | nil => intro l2; simp
  | cons a l1 ih =>
      intro l2
      cases l2 with
      | nil => simp
      | cons b l2 =>
          simp only [List.length_cons, List.zip_cons_cons]
          have : min (l1.length + 1) (l2.length + 1) = min l1.length l2.length + 1 := by
            omega
          rw [this]
          simp only [List.take_succ_cons, List.zip_cons_cons]
          rw [← ih l2]

theorem decodeFactories_count (jobs : List (List (List Nat))) (n_machines : Nat) :
    ∀ (subs : List (List Nat)) (results : List (List Schedule × List Slot)),
      decodeFactories jobs n_machines subs = some results →
      ((results.map (fun r => totalSlots r.1)).sum = (subs.map List.length).sum ∧
        results.length = subs.length) := by
  intro subs
  induction subs with
  | nil =>
      intro results h
      cases h
      simp
  | cons sg rest ih =>
      intro results h
      rw [decodeFactories] at h
      split at h
      · cases h
      · rename_i r hr
        split at h
        · cases h
        · rename_i rs hrs
          obtain ⟨h1, h2⟩ := ih rs hrs
          have hcount : totalSlots r.1 = sg.length := by
            cases r with
            | mk ms tr => exact single_factory_count sg jobs n_machines ms tr hr
          cases h
          simp only [List.map_cons, List.sum_cons, List.length_cons]
          omega

theorem decodeFactories_mem (jobs : List (List (List Nat))) (n_machines : Nat) :
    ∀ (subs : List (List Nat)) (results : List (List Schedule × List Slot)),
      decodeFactories jobs n_machines subs = some results →
      ∀ r ∈ results, ∃ sg ∈ subs,
        schedule_in_single_factory_traced sg jobs n_machines = some r := by
  intro subs
  induction subs with
  | nil =>
      intro results h r hr
      cases h
      cases hr
  | cons sg rest ih =>
      intro results h r hr
      rw [decodeFactories] at h
      split at h
      · cases h
      · rename_i r0 hr0
        split at h
        · cases h
        · rename_i rs hrs
          cases h
          rcases List.mem_cons.mp hr with hr | hr
          · subst hr
            exact ⟨sg, List.mem_cons_self _ _, hr0⟩
          · obtain ⟨sg2, hsg2, hdec⟩ := ih rs hrs r hr
            exact ⟨sg2, List.mem_cons_of_mem sg hsg2, hdec⟩

/-- Destructuring of a successful multi-factory decode. -/
theorem multi_traced_some (op : List Nat) (fac : List Int)
    (jobs : List (List (List Nat))) (nm nf : Nat) (mk : Nat)
    (gs : List (List Schedule)) (tr : List Slot)
    (h : schedule_in_multiple_factory_traced op fac jobs nm nf = some (mk, gs, tr)) :
    ∃ subs results,
      buildSubgenomes (op.zip fac) nf = some subs ∧
      decodeFactories jobs nm subs = some results ∧
      gs = results.map (·.1) ∧
      interleaveTraces nf (results.map (·.2)) (op.zip fac) (List.replicate nf 0)
        = some tr ∧
      makespan ((results.map (·.1)).flatten) = some mk := by
  unfold schedule_in_multiple_factory_traced at h
  split at h
  · cases h
  · rename_i subs hsubs
    split at h
    · cases h
    · rename_i results hresults
      split at h
      · cases h
      · rename_i trace htrace
        split at h
        · cases h
        · rename_i mk2 hmk
          have h3 := Option.some_inj.mp h
          have hmkeq : mk2 = mk := congrArg Prod.fst h3
          have hgs : gs = results.map (·.1) :=
            (congrArg (fun x => x.2.1) h3).symm
          have htr : trace = tr := congrArg (fun x => x.2.2) h3
          subst hmkeq
          rw [htr] at htrace
          exact ⟨subs, results, hsubs, hresults, hgs, htrace, hmk⟩

theorem multi_plain_some (op : List Nat) (fac : List Int)
    (jobs : List (List (List Nat))) (nm nf : Nat) (mk : Nat)
    (gs : List (List Schedule))
    (h : schedule_in_multiple_factory op fac jobs nm nf = some (mk, gs)) :
    ∃ tr, schedule_in_multiple_factory_traced op fac jobs nm nf = some (mk, gs, tr) := by
  unfold schedule_in_multiple_factory at h
  split at h
  · cases h
  · rename_i r hr
    have h2 := Option.some_inj.mp h
    refine ⟨r.2.2, ?_⟩
    rw [hr]
    have hmk : r.1 = mk := congrArg Prod.fst h2
    have hgs : r.2.1 = gs := congrArg Prod.snd h2
    rw [← hmk, ← hgs]

theorem single_factory_plain_some (genome : List Nat)
    (jobs : List (List (List Nat))) (n_machines : Nat) (ms : List Schedule)
    (h : schedule_in_single_factory genome jobs n_machines = some ms) :
    ∃ tr, schedule_in_single_factory_traced genome jobs n_machines = some (ms, tr) := by
  unfold schedule_in_single_factory at h
  split at h
  · cases h
  · rename_i st hst
    refine ⟨st.2, ?_⟩
    have hms : st.1 = ms := Option.some_inj.mp h
    rw [hst, ← hms]

theorem contribution_le_of_ends (l : Schedule) (E : Nat)
    (h : ∀ s ∈ l, s.2.2 ≤ E) : contribution l ≤ E := by
  rcases contribution_mem_or_zero l with hc | ⟨x, hx, hc⟩
  · rw [hc]; exact Nat.zero_le E
  · rw [hc]; exact h x hx

theorem trialMk_empty (gene n k t : Nat) :
    trialMk gene 0 (List.replicate n []) k t = t := by
  unfold trialMk
  rw [getD_replicate]
  simp only [insert_operation_to_schedule, List.map_cons, List.map_replicate,
    List.foldr_cons]
  rw [show contribution ([] : Schedule) = 0 from rfl, foldr_max_replicate_zero]
  show max (contribution [(gene, 0, 0 + t)]) 0 = t
  show max (0 + t) 0 = t
  omega

theorem selectLoop_all_empty (gene n S : Nat) (op : List Nat)
    (hne : op ≠ []) (hlen : op.length ≤ n) (hall : ∀ x ∈ op, x = S) :
    selectLoop gene 0 (List.replicate n []) op 0 none =
      some (some (cand gene 0 (List.replicate n []) 0 S)) := by
  rw [selectLoop_eq_foldl gene 0 (List.replicate n []) op 0 none (fun k hk => by
    simp only [List.length_replicate]
    omega)]
  cases op with
  | nil => exact absurd rfl hne
  | cons t0 rest =>
      have ht0 : t0 = S := hall t0 (List.mem_cons_self _ _)
      subst ht0
      simp only [candList, List.foldl_cons]
      rw [show pick none (cand gene 0 (List.replicate n []) 0 t0) =
        some (cand gene 0 (List.replicate n []) 0 t0) from rfl]
      rw [foldl_pick_keep _ _ ?_]
      intro c hc
      obtain ⟨k, hk, hck⟩ := candList_mem gene 0 (List.replicate n []) rest 1 c hc
      have htk : rest.getD k 0 = t0 :=
        hall (rest.getD k 0) (List.mem_cons_of_mem t0 (getD_mem rest k 0 hk))
      rw [hck, htk]
      show trialMk gene 0 (List.replicate n []) 0 t0 ≤
        trialMk gene 0 (List.replicate n []) (1 + k) t0
      rw [trialMk_empty, trialMk_empty]

theorem C2_amended_general (S n : Nat) (op : List Nat) (hne : op ≠ [])
    (hlen : op.length ≤ n) (hall : ∀ x ∈ op, x = S) :
    schedule_in_single_factory [0] [[op]] n =
      some ((List.replicate n ([] : Schedule)).set 0 [(0, 0, S)]) := by
  have hft : finish_time_of_last_operation 0 (List.replicate n ([] : Schedule)) = 0 :=
    finish_time_empty 0 n
  have hsel := selectLoop_all_empty 0 n S op hne hlen hall
  have hstep : sfStep [[op]] (List.replicate 1 0, List.replicate n ([] : Schedule), []) 0 =
      some ([1], (List.replicate n ([] : Schedule)).set 0 [(0, 0, S)], [(0, 0, S)]) := by
    have hunfold : sfStep [[op]] (List.replicate 1 0, List.replicate n ([] : Schedule), []) 0 =
        match selectLoop 0
            (finish_time_of_last_operation 0 (List.replicate n ([] : Schedule)))
            (List.replicate n ([] : Schedule)) op 0 none with
        | none => none
        | some none => none
        | some (some b) =>
            some ([1], (List.replicate n ([] : Schedule)).set b.2.1 b.2.2.2,
              [b.2.2.1]) := rfl
    rw [hunfold, hft, hsel]
    show some ([1], (List.replicate n ([] : Schedule)).set
        (cand 0 0 (List.replicate n []) 0 S).2.1
        (cand 0 0 (List.replicate n []) 0 S).2.2.2,
      [(cand 0 0 (List.replicate n []) 0 S).2.2.1]) = _
    simp only [cand]
    rw [getD_replicate]
    show some ([1], (List.replicate n ([] : Schedule)).set 0 [(0, 0, 0 + S)],
      [(0, 0, 0 + S)]) = _
    rw [Nat.zero_add]
  unfold schedule_in_single_factory schedule_in_single_factory_traced sfLoop
  have hinit : (List.replicate ([[op]] : List (List (List Nat))).length 0,
      List.replicate n ([] : Schedule), ([] : List Slot)) =
      (List.replicate 1 0, List.replicate n ([] : Schedule), ([] : List Slot)) := rfl
  rw [hinit, hstep]
  rfl

/-- Sufficient condition for the available machine to win: the operation
has a single machine a with a processing time below the sentinel S, every
committed slot ends by E, the finish time of the job is at most E, and
even after adding the processing time of machine a the completion stays
below S.  Then the machine-allocation loop commits machine a. -/
theorem selectLoop_single_available (gene f S E : Nat) (machines : List Schedule)
    (ops : List Nat) (a : Nat) (r : Cand)
    (ha : a < ops.length)
    (hS : ∀ k, k < ops.length → k ≠ a → ops.getD k 0 = S)
    (hmach : ∀ sched ∈ machines, ∀ s ∈ sched, s.2.1 ≤ s.2.2 ∧ s.2.2 ≤ E)
    (hf : f ≤ E)
    (hlt : E + ops.getD a 0 < S)
    (h : selectLoop gene f machines ops 0 none = some (some r)) :
    r.2.1 = a := by
  obtain ⟨hr, hlen, hcand, hmin, -⟩ := selectLoop_char gene f machines ops r h
  by_contra hne
  have hkey : r.1 = trialMk gene f machines r.2.1 (ops.getD r.2.1 0) :=
    congrArg Prod.fst hcand
  have hSr : ops.getD r.2.1 0 = S := hS r.2.1 hr hne
  have hends : ∀ k, k < machines.length → ∀ s ∈ machines.getD k [],
      s.2.1 ≤ s.2.2 ∧ s.2.2 ≤ E := by
    intro k hk s hs
    exact hmach (machines.getD k []) (getD_mem machines k [] hk) s hs
  have hcontrib : ∀ sched ∈ machines, contribution sched ≤ E := by
    intro sched hsched
    exact contribution_le_of_ends sched E (fun s hs => (hmach sched hsched s hs).2)
  -- lower bound at the sentinel machine that was committed
  have hlow : S ≤ trialMk gene f machines r.2.1 S := by
    have hstarts : ∀ x ∈ machines.getD r.2.1 [], x.2.1 < S := by
      intro x hx
      have := hends r.2.1 (lt_of_lt_of_le hr hlen) x hx
      omega
    obtain ⟨q, hq⟩ := insert_append_of_big S gene f (machines.getD r.2.1 []) hstarts
    have hmem : contribution (insert_operation_to_schedule S gene f (machines.getD r.2.1 []))
        ∈ List.map contribution
          (insert_operation_to_schedule S gene f (machines.getD r.2.1 []) :: machines) := by
      rw [List.map_cons]
      exact List.mem_cons_self _ _
    have hge := le_foldr_max _ _ hmem
    have hcontr : S ≤ contribution
        (insert_operation_to_schedule S gene f (machines.getD r.2.1 [])) := by
      rw [hq, contribution_append_single]
      show S ≤ max f q + S
      omega
    unfold trialMk
    exact le_trans hcontr hge
  -- upper bound at the single available machine
  have hup : trialMk gene f machines a (ops.getD a 0) ≤ E + ops.getD a 0 := by
    unfold trialMk
    refine foldr_max_le _ _ ?_
    intro x hx
    rw [List.map_cons] at hx
    rcases List.mem_cons.mp hx with hx | hx
    · rw [hx]
      refine contribution_le_of_ends _ _ ?_
      refine insert_end_le _ _ _ _ _ hf ?_
      intro y hy
      exact (hends a (lt_of_lt_of_le ha hlen) y hy).2
    · obtain ⟨sched, hsched, hxs⟩ := List.mem_map.mp hx
      rw [← hxs]
      exact le_trans (hcontrib sched hsched) (Nat.le_add_right E _)
  have hcmp := hmin a ha
  rw [hkey, hSr] at hcmp
  omega

theorem validFrom_sorted_nonoverlap (l : Schedule) (hv : validFrom 0 l = true) :
    l.Pairwise (fun a b => a.2.2 ≤ b.2.1 ∨ b.2.2 ≤ a.2.1) ∧
    l.Pairwise (fun a b => a.2.1 ≤ b.2.1) := by
  obtain ⟨hp, hall⟩ := validFrom_pairwise 0 l hv
  constructor
  · exact hp.imp (fun h => Or.inl h)
  · refine hp.imp_of_mem ?_
    intro a b ha hb hr
    exact le_trans (hall a ha).2 hr

/-- C1 counterexample: a job split across factories violates the global
precedence claim.  One job with two operations of duration 5, operation
genome [0, 0], factory genome [0, 1]: each factory independently
schedules the first not-yet-scheduled operation of job 0 starting at time
0, so the slot for operation index 1 starts at 0 < 5, the end of the slot
for operation index 0. -/
theorem C1_cross_factory_counterexample :
    schedule_in_multiple_factory_traced [0, 0] [0, 1] [[[5], [5]]] 1 2 =
      some (5, [[[(0, 0, 5)]], [[(0, 0, 5)]]], [(0, 0, 5), (0, 0, 5)]) ∧
    ¬ List.Chain' (fun a b => a.2.2 ≤ b.2.1)
      (([(0, 0, 5), (0, 0, 5)] : List Slot).filter (fun s => s.1 == 0)) := by
  refine ⟨rfl, ?_⟩
  intro hch
  rw [show (([(0, 0, 5), (0, 0, 5)] : List Slot).filter (fun s => s.1 == 0)) =
    [(0, 0, 5), (0, 0, 5)] from rfl] at hch
  exact absurd (List.chain'_cons.mp hch).1 (by decide)

/-- C1 (amended): within a single factory the precedence invariant holds:
for every successful single-factory decode and every job, the committed
slots of that job, in genome (operation-index) order as recorded by the
trace, satisfy start of the next slot at least the end of the previous
slot.  Across factories the claim fails, because each factory computes
the earliest start only from its own committed slots (see the
counterexample). -/
theorem C1_per_factory_precedence (genome : List Nat)
    (jobs : List (List (List Nat))) (n_machines : Nat)
    (ms : List Schedule) (tr : List Slot)
    (h : schedule_in_single_factory_traced genome jobs n_machines = some (ms, tr))
    (j : Nat) :
    List.Chain' (fun a b => a.2.2 ≤ b.2.1) (tr.filter (fun s => s.1 == j)) :=
  single_factory_trace_chain genome jobs n_machines ms tr h j

theorem C1_per_factory_precedence_witness :
    List.Chain' (fun a b => a.2.2 ≤ b.2.1)
      (([(0, 0, 2), (0, 2, 5)] : List Slot).filter (fun s => s.1 == 0)) :=
  C1_per_factory_precedence [0, 0] [[[2], [3]]] 1 [[(0, 0, 2), (0, 2, 5)]]
    [(0, 0, 2), (0, 2, 5)] (by decide) 0

/-- C2 counterexample: an operation whose processing time is the
unavailable sentinel (10^14, as in the example driver) on every machine
is still committed — the decoder returns a schedule with a slot of
duration 10^14 instead of surfacing an error. -/
theorem C2_all_sentinel_counterexample :
    schedule_in_single_factory [0] [[[100000000000000, 100000000000000]]] 2 =
      some [[(0, 0, 100000000000000)], []] := by decide

/-- C2 (amended): the single-factory decoder raises no error when every
machine is unavailable for an operation: for any value S used as sentinel
and any operation row whose entries all equal S, the decoder silently
commits the operation to machine 0 (the first minimizer) with processing
time S. -/
theorem C2_no_error_on_all_sentinel (S n : Nat) (op : List Nat) (hne : op ≠ [])
    (hlen : op.length ≤ n) (hall : ∀ x ∈ op, x = S) :
    schedule_in_single_factory [0] [[op]] n =
      some ((List.replicate n ([] : Schedule)).set 0 [(0, 0, S)]) :=
  C2_amended_general S n op hne hlen hall

theorem C2_no_error_on_all_sentinel_witness :
    schedule_in_single_factory [0] [[[7, 7]]] 2 =
      some ((List.replicate 2 ([] : Schedule)).set 0 [(0, 0, 7)]) :=
  C2_no_error_on_all_sentinel 7 2 [7, 7] (by decide) (by decide) (by decide)

/-- C3 counterexample: genomes of different lengths (1 and 0) do not
fail — the orchestrator returns a (makespan, schedule) result, silently
ignoring the extra gene. -/
theorem C3_length_mismatch_counterexample :
    schedule_in_multiple_factory [0] [] [[[1]]] 1 1 = some (0, [[[]]]) ∧
    ([0] : List Nat).length ≠ ([] : List Int).length := by
  exact ⟨rfl, by decide⟩

/-- C3 (amended): the orchestrator performs no length check at all:
because the genome pair is consumed through zip, decoding any pair of
genomes equals decoding both genomes truncated to the shorter length —
mismatched tails are silently dropped, and a result is produced whenever
the truncated pair decodes. -/
theorem C3_silent_truncation (op : List Nat) (fac : List Int)
    (jobs : List (List (List Nat))) (nm nf : Nat) :
    schedule_in_multiple_factory op fac jobs nm nf =
      schedule_in_multiple_factory (op.take (min op.length fac.length))
        (fac.take (min op.length fac.length)) jobs nm nf := by
  unfold schedule_in_multiple_factory schedule_in_multiple_factory_traced
  rw [← zip_take_min op fac]

/-- C4 (confirmed): the insertion planner maps a valid (non-overlapping,
start-sorted) schedule to a valid schedule with exactly one more slot,
for positive processing times; consequently every machine schedule
produced by the single-factory decoder is pairwise non-overlapping. -/
theorem C4_insertion_invariants :
    (∀ (t j f : Nat) (s : Schedule), 0 < t → validFrom 0 s = true →
      validFrom 0 (insert_operation_to_schedule t j f s) = true ∧
      (insert_operation_to_schedule t j f s).length = s.length + 1 ∧
      (insert_operation_to_schedule t j f s).Pairwise
        (fun a b => a.2.2 ≤ b.2.1 ∨ b.2.2 ≤ a.2.1) ∧
      (insert_operation_to_schedule t j f s).Pairwise (fun a b => a.2.1 ≤ b.2.1)) ∧
    (∀ (genome : List Nat) (jobs : List (List (List Nat))) (n_machines : Nat)
      (ms : List Schedule),
      schedule_in_single_factory genome jobs n_machines = some ms →
      ∀ m ∈ ms, m.Pairwise (fun a b => a.2.2 ≤ b.2.1 ∨ b.2.2 ≤ a.2.1)) := by
  constructor
  · intro t j f s _ hv
    have hv2 := insert_validFrom t j f s hv
    obtain ⟨h1, h2⟩ := validFrom_sorted_nonoverlap _ hv2
    exact ⟨hv2, insert_length t j f s, h1, h2⟩
  · intro genome jobs n_machines ms h m hm
    obtain ⟨tr, htr⟩ := single_factory_plain_some genome jobs n_machines ms h
    have hv := single_factory_valid genome jobs n_machines ms tr htr m hm
    exact (validFrom_sorted_nonoverlap m hv).1

theorem C4_insertion_invariants_witness :
    ((insert_operation_to_schedule 1 0 0 ([] : Schedule)).length =
      ([] : Schedule).length + 1) ∧
    (([(0, 0, 2)] : Schedule).Pairwise
      (fun a b => a.2.2 ≤ b.2.1 ∨ b.2.2 ≤ a.2.1)) :=
  ⟨(C4_insertion_invariants.1 1 0 0 [] (by decide) (by decide)).2.1,
   C4_insertion_invariants.2 [0] [[[2]]] 1 [[(0, 0, 2)]] (by decide)
     [(0, 0, 2)] (by decide)⟩

/-- C5 (confirmed): for a genome pair of equal lengths that the decoder
accepts, the total number of committed slots across all factories and
machines equals the length of the operation genome. -/
theorem C5_slot_conservation (op : List Nat) (fac : List Int)
    (jobs : List (List (List Nat))) (nm nf mk : Nat) (gs : List (List Schedule))
    (hlen : op.length = fac.length)
    (h : schedule_in_multiple_factory op fac jobs nm nf = some (mk, gs)) :
    (gs.map totalSlots).sum = op.length := by
  obtain ⟨tr, htr⟩ := multi_plain_some op fac jobs nm nf mk gs h
  obtain ⟨subs, results, hsubs, hres, hgs, -, -⟩ :=
    multi_traced_some op fac jobs nm nf mk gs tr htr
  obtain ⟨hsum, -⟩ := decodeFactories_count jobs nm subs results hres
  unfold buildSubgenomes at hsubs
  obtain ⟨hsum2, -⟩ := bsLoop_sum nf (op.zip fac) _ subs hsubs
  rw [hgs]
  have hmm : (results.map (·.1)).map totalSlots =
      results.map (fun r => totalSlots r.1) := by
    rw [List.map_map]
    rfl
  rw [hmm, hsum, hsum2]
  have hz : ((List.replicate nf ([] : List Nat)).map List.length).sum = 0 := by
    simp
  rw [hz, List.length_zip]
  omega

theorem C5_slot_conservation_witness :
    (([[[(0, 0, 1)]]] : List (List Schedule)).map totalSlots).sum =
      ([0] : List Nat).length :=
  C5_slot_conservation [0] [0] [[[1]]] 1 1 1 [[[(0, 0, 1)]]] (by decide) rfl

/-- C6 (confirmed): the machine-allocation loop commits the first machine
achieving the minimal trial makespan: the committed candidate is the one
the loop built for machine index r.2.1, its trial makespan is a lower
bound for every enumerated machine, and every machine of smaller index
has a strictly larger trial makespan — an equal later makespan never
replaces the current best. -/
theorem C6_first_min_tie_break (gene f : Nat) (machines : List Schedule)
    (ops : List Nat) (r : Cand)
    (h : selectLoop gene f machines ops 0 none = some (some r)) :
    r.2.1 < ops.length ∧
    r = cand gene f machines r.2.1 (ops.getD r.2.1 0) ∧
    (∀ k, k < ops.length → r.1 ≤ trialMk gene f machines k (ops.getD k 0)) ∧
    (∀ k, k < r.2.1 → r.1 < trialMk gene f machines k (ops.getD k 0)) := by
  obtain ⟨h1, -, h3, h4, h5⟩ := selectLoop_char gene f machines ops r h
  exact ⟨h1, h3, h4, h5⟩

theorem C6_first_min_tie_break_witness :
    (5 : Nat) ≤ trialMk 0 0 [[], []] 1 (([5, 5] : List Nat).getD 1 0) :=
  (C6_first_min_tie_break 0 0 [[], []] [5, 5] (5, 0, (0, 0, 5), [(0, 0, 5)])
    rfl).2.2.1 1 (by decide)

/-- C7 (confirmed): the trial makespan the decoder computes — the
makespan of the trial schedule consed onto all current machine schedules,
including the unmodified schedule of the candidate machine — equals the
makespan of the machine schedules with the trial substituted for that
machine, because insertion never decreases the end of the last slot of a
schedule. -/
theorem C7_trial_makespan_substitution :
    (∀ (machines : List Schedule) (m t j f : Nat), m < machines.length →
      makespan (insert_operation_to_schedule t j f (machines.getD m []) :: machines) =
        makespan (machines.set m
          (insert_operation_to_schedule t j f (machines.getD m [])))) ∧
    (∀ (t j f : Nat) (s : Schedule),
      contribution s ≤ contribution (insert_operation_to_schedule t j f s)) := by
  constructor
  · intro machines m t j f hm
    exact makespan_set machines m _ hm (insert_contribution t j f _)
  · intro t j f s
    exact insert_contribution t j f s

theorem C7_trial_makespan_substitution_witness :
    makespan (insert_operation_to_schedule 3 1 0
        (([[(0, 0, 2)]] : List Schedule).getD 0 []) :: [[(0, 0, 2)]]) =
      makespan (([[(0, 0, 2)]] : List Schedule).set 0
        (insert_operation_to_schedule 3 1 0
          (([[(0, 0, 2)]] : List Schedule).getD 0 []))) :=
  C7_trial_makespan_substitution.1 [[(0, 0, 2)]] 0 3 1 0 (by decide)

/-- C8 counterexample: on an empty collection of machine schedules the
makespan function does not return 0 — it fails (Python max raises
ValueError on an empty list). -/
theorem C8_empty_collection_counterexample :
    makespan ([] : List Schedule) = none ∧
    makespan ([] : List Schedule) ≠ some 0 := by
  exact ⟨rfl, by decide⟩

/-- C8 (amended): makespan of a nonempty collection is the maximum
contribution — an attained upper bound of the contributions, where the
contribution of a schedule is the end of its last slot (0 when empty) —
and is some 0 when all schedules are empty; on an empty collection it
returns no value (the Python code raises) rather than 0. -/
theorem C8_makespan_characterization :
    makespan ([] : List Schedule) = none ∧
    (∀ ss : List Schedule, ss ≠ [] →
      ∃ v, makespan ss = some v ∧ (∀ s ∈ ss, contribution s ≤ v) ∧
        ∃ s ∈ ss, contribution s = v) ∧
    (∀ ss : List Schedule, ss ≠ [] → (∀ s ∈ ss, s = []) → makespan ss = some 0) ∧
    (contribution ([] : Schedule) = 0 ∧
      ∀ (l : Schedule) (x : Slot), contribution (l ++ [x]) = x.2.2) := by
  refine ⟨rfl, ?_, ?_, rfl, contribution_append_single⟩
  · intro ss hne
    refine ⟨(ss.map contribution).foldr max 0, makespan_eq_some ss hne, ?_, ?_⟩
    · intro s hs
      exact le_foldr_max _ _ (List.mem_map_of_mem contribution hs)
    · have hmem := foldr_max_mem (ss.map contribution) (by
        intro hcon
        exact hne (List.map_eq_nil_iff.mp hcon))
      obtain ⟨s, hsmem, hsval⟩ := List.mem_map.mp hmem
      exact ⟨s, hsmem, hsval⟩
  · intro ss hne hall
    have h2 : ∀ s ∈ ss, contribution s ≤ 0 := by
      intro s hs
      rw [hall s hs]
      exact le_refl 0
    rw [makespan_eq_some ss hne]
    have hle : ((ss.map contribution).foldr max 0) ≤ 0 := by
      refine foldr_max_le _ _ ?_
      intro x hx
      obtain ⟨s, hsmem, hsval⟩ := List.mem_map.mp hx
      rw [← hsval]
      exact h2 s hsmem
    rw [Nat.le_zero.mp hle]

theorem C8_makespan_characterization_witness :
    ∃ v, makespan [[(0, 0, 3)], []] = some v ∧
      (∀ s ∈ ([[(0, 0, 3)], []] : List Schedule), contribution s ≤ v) ∧
      ∃ s ∈ ([[(0, 0, 3)], []] : List Schedule), contribution s = v :=
  C8_makespan_characterization.2.1 [[(0, 0, 3)], []] (by decide)

/-- C9 counterexample: job 1 has one operation, unavailable (sentinel
10^14) on machines 0 and 1 and available (time 7) on machine 2; after job
0 twice commits an all-sentinel operation on machine 0 (ending at
2 * 10^14), the trial makespans of machines 1 and 2 for the job-1
operation tie at 2 * 10^14 and the tie-break commits machine 1 — a
sentinel machine — leaving machine 2 empty, against the claim. -/
theorem C9_sentinel_tie_counterexample :
    schedule_in_single_factory [0, 0, 1]
        [[[100000000000000, 100000000000000, 100000000000000],
          [100000000000000, 100000000000000, 100000000000000]],
         [[100000000000000, 100000000000000, 7]]] 3 =
      some [[(0, 0, 100000000000000), (0, 100000000000000, 200000000000000)],
            [(1, 0, 100000000000000)], []] := by decide

/-- C9 (amended): the single available machine wins provided the sentinel
dominates: if the operation times equal S on every machine except a, all
committed slots are well-formed and end by E, the finish time of the job
is at most E, and E plus the processing time on a stays below S, then the
machine-allocation loop commits machine a.  Without the bound the
counterexample shows a sentinel machine can win by tie-break. -/
theorem C9_single_available_machine (gene f S E : Nat) (machines : List Schedule)
    (ops : List Nat) (a : Nat) (r : Cand)
    (ha : a < ops.length)
    (hS : ∀ k, k < ops.length → k ≠ a → ops.getD k 0 = S)
    (hmach : ∀ sched ∈ machines, ∀ s ∈ sched, s.2.1 ≤ s.2.2 ∧ s.2.2 ≤ E)
    (hf : f ≤ E)
    (hlt : E + ops.getD a 0 < S)
    (h : selectLoop gene f machines ops 0 none = some (some r)) :
    r.2.1 = a :=
  selectLoop_single_available gene f S E machines ops a r ha hS hmach hf hlt h

theorem C9_single_available_machine_witness :
    ((1, 2, (0, 0, 1), [(0, 0, 1)]) : Cand).2.1 = 2 :=
  C9_single_available_machine 0 0 10 0 [[], [], []] [10, 10, 1] 2
    (1, 2, (0, 0, 1), [(0, 0, 1)]) (by decide) (by decide) (by decide)
    (by decide) (by decide) rfl

/-- C10 counterexample: a negative factory index is silently accepted:
with one factory, factory-genome value -1 wraps around to factory 0 and
decoding returns a result instead of failing. -/
theorem C10_negative_index_counterexample :
    schedule_in_multiple_factory [0] [-1] [[[1]]] 1 1 =
      some (1, [[[(0, 0, 1)]]]) ∧ (-1 : Int) < 0 := by
  exact ⟨rfl, by decide⟩

/-- C10 (amended): a factory-genome value at or beyond n_factories, or
below -n_factories, makes decoding fail (Python IndexError); but a
negative value v with -n_factories <= v < 0 is silently accepted and
wraps to factory n_factories + v — decoding behaves exactly as if every
such value were replaced by its wrapped nonnegative form. -/
theorem C10_factory_index_wrap :
    (∀ (op : List Nat) (fac : List Int) (jobs : List (List (List Nat))) (nm nf : Nat),
      (∃ p ∈ op.zip fac, p.2 < -(nf : Int) ∨ (nf : Int) ≤ p.2) →
      schedule_in_multiple_factory op fac jobs nm nf = none) ∧
    (∀ (op : List Nat) (fac : List Int) (jobs : List (List (List Nat))) (nm nf : Nat),
      (∀ p ∈ op.zip fac, -(nf : Int) ≤ p.2 ∧ p.2 < nf) →
      schedule_in_multiple_factory op
          (fac.map (fun v => if v < 0 then v + nf else v)) jobs nm nf =
        schedule_in_multiple_factory op fac jobs nm nf) := by
  constructor
  · rintro op fac jobs nm nf ⟨p, hp, hbad⟩
    have hbs : buildSubgenomes (op.zip fac) nf = none := by
      unfold buildSubgenomes
      exact bsLoop_none_of_bad nf _ _ ⟨p, hp, pyListIndex_none nf p.2 hbad⟩
    unfold schedule_in_multiple_factory schedule_in_multiple_factory_traced
    rw [hbs]
  · intro op fac jobs nm nf hall
    have hpy : ∀ p ∈ op.zip fac,
        pyListIndex nf ((fun v : Int => if v < 0 then v + nf else v) p.2) =
          pyListIndex nf p.2 := by
      intro p hp
      exact pyListIndex_norm nf p.2 (hall p hp).1 (hall p hp).2
    have hzip : op.zip (fac.map (fun v : Int => if v < 0 then v + nf else v)) =
        (op.zip fac).map
          (fun p => (p.1, (fun v : Int => if v < 0 then v + nf else v) p.2)) := by
      rw [List.zip_map_right]
      rfl
    have htraced : schedule_in_multiple_factory_traced op
        (fac.map (fun v : Int => if v < 0 then v + nf else v)) jobs nm nf =
        schedule_in_multiple_factory_traced op fac jobs nm nf := by
      unfold schedule_in_multiple_factory_traced buildSubgenomes
      rw [hzip]
      rw [bsLoop_congr nf (fun v : Int => if v < 0 then v + nf else v) (op.zip fac)
        (List.replicate nf []) hpy]
      split
      · rfl
      · rename_i subs hsubs
        split
        · rfl
        · rename_i results hres
          rw [interleave_congr nf (fun v : Int => if v < 0 then v + nf else v)
            (results.map (·.2)) (op.zip fac) (List.replicate nf 0) hpy]
    unfold schedule_in_multiple_factory
    rw [htraced]

theorem C10_factory_index_wrap_witness :
    schedule_in_multiple_factory [0] [5] [[[1]]] 1 1 = none ∧
    schedule_in_multiple_factory [0]
        (([-1] : List Int).map (fun v => if v < 0 then v + 1 else v)) [[[1]]] 1 1 =
      schedule_in_multiple_factory [0] [-1] [[[1]]] 1 1 :=
  ⟨C10_factory_index_wrap.1 [0] [5] [[[1]]] 1 1 ⟨(0, 5), by decide, by decide⟩,
   C10_factory_index_wrap.2 [0] [-1] [[[1]]] 1 1 (by decide)⟩

end Dafjsp
